import Mathlib

/-!
Verification of the hybrid-product pipeline (App.tsx, services/geminiService.ts).

The development shallowly embeds:
  * the JSON extractor `extractJson` (src/services/geminiService.ts, lines 14-70),
  * the orchestrator state and its handlers (src/App.tsx),
and proves the behavioural properties stated about them.

Asynchronous gateway calls (`analyzeProduct`, `generateBlueprint`,
`generateHybridIdeas`, `paraphraseText`) are modelled as oracle functions
returning `Except String α`: an `Except.error` models a rejected promise.
`Promise.all` is modelled by the explicit join `promiseAll`, which joins
results in the callers' index order (the join semantics of `Promise.all`);
when several calls reject, the model reports the least-index rejection,
whereas JavaScript reports the temporally first one — no theorem below
depends on which rejection message is chosen.
-/

/-- The two failure conditions of `extractJson`
(src/services/geminiService.ts, lines 19 and 69). -/
inductive ExtractError where
  | noJson
  | incomplete
deriving DecidableEq, Repr

/-- `text.indexOf(ch)` from the scanner (src/services/geminiService.ts,
lines 15-16); `none` models the `-1` sentinel. -/
def indexOfChar : List Char → Char → Option Nat
  | [], _ => none
  | a :: rest, ch =>
    if a = ch then some 0 else (indexOfChar rest ch).map (· + 1)

/-- The `startPos` computation of `extractJson`
(src/services/geminiService.ts, lines 15-29): the first index holding
`'{'` or `'['`, i.e. the minimum of the two `indexOf` results when both
exist. -/
def startPosOf (text : List Char) : Option Nat :=
  match indexOfChar text '{', indexOfChar text '[' with
  | none, none => none
  | some i, some j => some (min i j)
  | some i, none => some i
  | none, some j => some j

/-- The balance-scanning loop of `extractJson`
(src/services/geminiService.ts, lines 37-67), processing the characters
after `startPos` with state `balance`/`inString`/`escape`.  Returns the
number of characters consumed up to and including the character at which
the balance reached zero (so the matched substring has this length plus
one for the opening delimiter), or `none` when the loop runs off the end
of the input. -/
def scanLen (o c : Char) : List Char → Int → Bool → Bool → Option Nat
  | [], _, _, _ => none
  | ch :: rest, bal, inStr, esc =>
    if esc then
      (scanLen o c rest bal inStr false).map (· + 1)
    else if ch = '\\' then
      (scanLen o c rest bal inStr true).map (· + 1)
    else
      let inStr' := if ch = '"' then !inStr else inStr
      if inStr' then
        (scanLen o c rest bal inStr' false).map (· + 1)
      else
        let bal' := if ch = o then bal + 1 else if ch = c then bal - 1 else bal
        if bal' = 0 then some 1
        else (scanLen o c rest bal' inStr' false).map (· + 1)

/-- `extractJson` (src/services/geminiService.ts, lines 14-70): find the
first `'{'` or `'['`, pick the matching close character, scan for the
position where the balance returns to zero, and return the substring
from the opening delimiter through that position. -/
def extractJson (text : List Char) : Except ExtractError (List Char) :=
  match startPosOf text with
  | none => Except.error ExtractError.noJson
  | some startPos =>
    let openChar := text.getD startPos ' '
    let closeChar := if openChar = '{' then '}' else ']'
    match scanLen openChar closeChar (text.drop (startPos + 1)) 1 false false with
    | some k => Except.ok ((text.drop startPos).take (k + 1))
    | none => Except.error ExtractError.incomplete

deriving instance DecidableEq for Except

example : extractJson "\x7b\x7d".data = Except.ok "\x7b\x7d".data := by decide
example : extractJson "x".data = Except.error ExtractError.noJson := by decide
example : extractJson "a \x7b\"k\": [1, 2]\x7d b".data = Except.ok "\x7b\"k\": [1, 2]\x7d".data := by
  decide
example : extractJson "\x7boops".data = Except.error ExtractError.incomplete := by decide

/-!
A model of well-formed JSON values, used to state the extractor's
functional-correctness property ("the input contains a well-formed JSON
object or array").  Strings are arbitrary character lists whose quote and
backslash characters are escaped on rendering; numbers are integers
rendered as an optional minus sign followed by decimal digits.  `render`
produces the canonical (whitespace-free) text of a value; the extractor
theorems quantify over values embedded in arbitrary surrounding text.
-/

mutual
inductive JsonValue where
  | jnull : JsonValue
  | jbool : Bool → JsonValue
  | jnum : Int → JsonValue
  | jstr : List Char → JsonValue
  | jarr : JsonArr → JsonValue
  | jobj : JsonObj → JsonValue
deriving DecidableEq

inductive JsonArr where
  | nil : JsonArr
  | cons : JsonValue → JsonArr → JsonArr
deriving DecidableEq

inductive JsonObj where
  | nil : JsonObj
  | cons : List Char → JsonValue → JsonObj → JsonObj
deriving DecidableEq
end

/-- Decimal digit characters. -/
def digitChar (d : Nat) : Char :=
  match d with
  | 0 => '0' | 1 => '1' | 2 => '2' | 3 => '3' | 4 => '4'
  | 5 => '5' | 6 => '6' | 7 => '7' | 8 => '8' | _ => '9'

/-- Decimal digits of `n`, most significant first (`fuel`-bounded). -/
def natDigitsAux : Nat → Nat → List Char → List Char
  | 0, _, acc => acc
  | _ + 1, 0, acc => acc
  | fuel + 1, n, acc => natDigitsAux fuel (n / 10) (digitChar (n % 10) :: acc)

def renderNat (n : Nat) : List Char :=
  if n = 0 then ['0'] else natDigitsAux (n + 1) n []

def renderInt (n : Int) : List Char :=
  if n < 0 then '-' :: renderNat n.natAbs else renderNat n.natAbs

/-- JSON string escaping for one character. -/
def escChar (ch : Char) : List Char :=
  if ch = '"' ∨ ch = '\\' then ['\\', ch] else [ch]

def escStr (s : List Char) : List Char := (s.map escChar).flatten

/-- A rendered JSON string literal. -/
def renderStr (s : List Char) : List Char := '"' :: (escStr s ++ ['"'])

mutual
def renderValue : JsonValue → List Char
  | .jnull => ['n', 'u', 'l', 'l']
  | .jbool true => ['t', 'r', 'u', 'e']
  | .jbool false => ['f', 'a', 'l', 's', 'e']
  | .jnum n => renderInt n
  | .jstr s => renderStr s
  | .jarr a => '[' :: (renderArrElems a ++ [']'])
  | .jobj m => '{' :: (renderObjMembs m ++ ['}'])

def renderArrElems : JsonArr → List Char
  | .nil => []
  | .cons v rest => renderValue v ++ renderArrTail rest

def renderArrTail : JsonArr → List Char
  | .nil => []
  | .cons v rest => ',' :: (renderValue v ++ renderArrTail rest)

def renderObjMembs : JsonObj → List Char
  | .nil => []
  | .cons k v rest => renderStr k ++ ':' :: (renderValue v ++ renderObjTail rest)

def renderObjTail : JsonObj → List Char
  | .nil => []
  | .cons k v rest => ',' :: (renderStr k ++ ':' :: (renderValue v ++ renderObjTail rest))
end

example :
    renderValue (.jobj (.cons "a".data (.jnum 1) .nil)) = "\x7b\"a\":1\x7d".data := by
  simp [renderValue, renderObjMembs, renderObjTail, renderStr, escStr, escChar,
    renderInt, renderNat, natDigitsAux, digitChar]

example :
    renderValue (.jarr (.cons (.jnum (-12)) (.cons .jnull .nil))) = "[-12,null]".data := by
  simp [renderValue, renderArrElems, renderArrTail, renderInt, renderNat,
    natDigitsAux, digitChar]

/-!  Single-step behaviour of the scanner loop.  -/

theorem scanLen_safe (o c ch : Char) (rest : List Char) (bal : Int) (ho : ch ≠ o)
    (hc : ch ≠ c) (hq : ch ≠ '"') (hb : ch ≠ '\\') (hbal : bal ≠ 0) :
    scanLen o c (ch :: rest) bal false false
      = (scanLen o c rest bal false false).map (· + 1) := by
  simp [scanLen, ho, hc, hq, hb, hbal]

theorem scanLen_esc (o c ch : Char) (rest : List Char) (bal : Int) (inStr : Bool) :
    scanLen o c (ch :: rest) bal inStr true
      = (scanLen o c rest bal inStr false).map (· + 1) := by
  simp [scanLen]

theorem scanLen_backslash (o c : Char) (rest : List Char) (bal : Int) (inStr : Bool) :
    scanLen o c ('\\' :: rest) bal inStr false
      = (scanLen o c rest bal inStr true).map (· + 1) := by
  simp [scanLen]

theorem scanLen_quote_open (o c : Char) (rest : List Char) (bal : Int) :
    scanLen o c ('"' :: rest) bal false false
      = (scanLen o c rest bal true false).map (· + 1) := by
  simp [scanLen]

theorem scanLen_quote_close (o c : Char) (rest : List Char) (bal : Int)
    (ho : o ≠ '"') (hc : c ≠ '"') (hbal : bal ≠ 0) :
    scanLen o c ('"' :: rest) bal true false
      = (scanLen o c rest bal false false).map (· + 1) := by
  simp [scanLen, Ne.symm ho, Ne.symm hc, hbal]

theorem scanLen_inStr (o c ch : Char) (rest : List Char) (bal : Int)
    (hq : ch ≠ '"') (hb : ch ≠ '\\') :
    scanLen o c (ch :: rest) bal true false
      = (scanLen o c rest bal true false).map (· + 1) := by
  simp [scanLen, hq, hb]

theorem scanLen_open (o c : Char) (rest : List Char) (bal : Int)
    (hb : o ≠ '\\') (hq : o ≠ '"') (hbal : bal + 1 ≠ 0) :
    scanLen o c (o :: rest) bal false false
      = (scanLen o c rest (bal + 1) false false).map (· + 1) := by
  simp [scanLen, hb, hq, hbal]

theorem scanLen_close_end (o c : Char) (rest : List Char) (bal : Int)
    (hoc : c ≠ o) (hb : c ≠ '\\') (hq : c ≠ '"') (hbal : bal - 1 = 0) :
    scanLen o c (c :: rest) bal false false = some 1 := by
  simp [scanLen, hb, hq, hoc, hbal]

theorem scanLen_close_go (o c : Char) (rest : List Char) (bal : Int)
    (hoc : c ≠ o) (hb : c ≠ '\\') (hq : c ≠ '"') (hbal : bal - 1 ≠ 0) :
    scanLen o c (c :: rest) bal false false
      = (scanLen o c rest (bal - 1) false false).map (· + 1) := by
  simp [scanLen, hb, hq, hoc, hbal]

/-!  Chunks of input that the scanner passes over without terminating.  -/

/-- The two opening/closing pairs `extractJson` can scan with
(src/services/geminiService.ts, lines 31-32). -/
def DelimPair (o c : Char) : Prop := (o = '{' ∧ c = '}') ∨ (o = '[' ∧ c = ']')

/-- A character that the scanner treats as inert outside of strings. -/
def IsSafe (ch : Char) : Prop :=
  ch ≠ '{' ∧ ch ≠ '}' ∧ ch ≠ '[' ∧ ch ≠ ']' ∧ ch ≠ '"' ∧ ch ≠ '\\'

instance (ch : Char) : Decidable (IsSafe ch) := by
  unfold IsSafe; infer_instance

/-- `chunk` is consumed whole by the scanner, from any not-in-string state
with positive balance, leaving the state unchanged. -/
def Consumes (o c : Char) (chunk : List Char) : Prop :=
  ∀ rest bal, 1 ≤ bal →
    scanLen o c (chunk ++ rest) bal false false
      = (scanLen o c rest bal false false).map (· + chunk.length)

/-- `chunk` is consumed whole by the scanner from any in-string state,
leaving the scanner inside the string. -/
def ConsumesStr (o c : Char) (chunk : List Char) : Prop :=
  ∀ rest bal,
    scanLen o c (chunk ++ rest) bal true false
      = (scanLen o c rest bal true false).map (· + chunk.length)

theorem consumes_nil (o c : Char) : Consumes o c [] := by
  intro rest bal _
  cases h : scanLen o c rest bal false false <;> simp [h]

theorem consumes_append {o c : Char} {l₁ l₂ : List Char}
    (h₁ : Consumes o c l₁) (h₂ : Consumes o c l₂) : Consumes o c (l₁ ++ l₂) := by
  intro rest bal hbal
  rw [List.append_assoc, h₁ _ bal hbal, h₂ _ bal hbal, Option.map_map]
  cases scanLen o c rest bal false false with
  | none => simp
  | some k => simp [Function.comp]; omega

theorem consumes_safe {o c ch : Char} (hd : DelimPair o c) (hs : IsSafe ch) :
    Consumes o c [ch] := by
  intro rest bal hbal
  obtain ⟨h1, h2, h3, h4, h5, h6⟩ := hs
  have hbal' : bal ≠ 0 := by omega
  have key := fun ho hc => scanLen_safe o c ch rest bal ho hc h5 h6 hbal'
  rcases hd with ⟨ho, hc⟩ | ⟨ho, hc⟩ <;> subst ho <;> subst hc <;>
    simpa using key (by assumption) (by assumption)

theorem consumes_single {o c ch : Char} (ho : ch ≠ o) (hc : ch ≠ c)
    (hq : ch ≠ '"') (hb : ch ≠ '\\') : Consumes o c [ch] := by
  intro rest bal hbal
  simpa using scanLen_safe o c ch rest bal ho hc hq hb (by omega)

theorem consumes_all_safe {o c : Char} (hd : DelimPair o c) {l : List Char}
    (hs : ∀ ch ∈ l, IsSafe ch) : Consumes o c l := by
  induction l with
  | nil => exact consumes_nil o c
  | cons ch l ih =>
    have : ch :: l = [ch] ++ l := rfl
    rw [this]
    exact consumes_append (consumes_safe hd (hs ch (by simp)))
      (ih fun a ha => hs a (by simp [ha]))

theorem consumesStr_nil (o c : Char) : ConsumesStr o c [] := by
  intro rest bal
  cases h : scanLen o c rest bal true false <;> simp [h]

theorem consumesStr_append {o c : Char} {l₁ l₂ : List Char}
    (h₁ : ConsumesStr o c l₁) (h₂ : ConsumesStr o c l₂) :
    ConsumesStr o c (l₁ ++ l₂) := by
  intro rest bal
  rw [List.append_assoc, h₁ _ bal, h₂ _ bal, Option.map_map]
  cases scanLen o c rest bal true false with
  | none => simp
  | some k => simp [Function.comp]; omega

/-- Escaped string content is passed over while staying in string mode. -/
theorem consumesStr_escStr (o c : Char) (s : List Char) :
    ConsumesStr o c (escStr s) := by
  induction s with
  | nil => exact consumesStr_nil o c
  | cons ch s ih =>
    have hsplit : escStr (ch :: s) = escChar ch ++ escStr s := by
      simp [escStr]
    rw [hsplit]
    refine consumesStr_append ?_ ih
    intro rest bal
    by_cases hq : ch = '"' ∨ ch = '\\'
    · simp only [escChar, if_pos hq]
      rw [show ('\\' :: [ch] : List Char) ++ rest = '\\' :: ch :: rest from rfl,
        scanLen_backslash, scanLen_esc, Option.map_map]
      cases scanLen o c rest bal true false with
      | none => simp
      | some k => simp [Function.comp]
    · push_neg at hq
      simp only [escChar, if_neg (by tauto : ¬(ch = '"' ∨ ch = '\\'))]
      rw [show ([ch] : List Char) ++ rest = ch :: rest from rfl,
        scanLen_inStr o c ch rest bal hq.1 hq.2]
      simp

/-- A whole rendered string literal is consumed without affecting the
balance. -/
theorem consumes_renderStr {o c : Char} (hd : DelimPair o c) (s : List Char) :
    Consumes o c (renderStr s) := by
  intro rest bal hbal
  have hbal' : bal ≠ 0 := by omega
  have ho : o ≠ '"' := by rcases hd with ⟨h, _⟩ | ⟨h, _⟩ <;> subst h <;> decide
  have hc : c ≠ '"' := by rcases hd with ⟨_, h⟩ | ⟨_, h⟩ <;> subst h <;> decide
  have hshape : renderStr s ++ rest = '"' :: (escStr s ++ ('"' :: rest)) := by
    simp [renderStr]
  rw [hshape, scanLen_quote_open, consumesStr_escStr o c s ('"' :: rest) bal,
    scanLen_quote_close o c rest bal ho hc hbal', Option.map_map, Option.map_map]
  cases scanLen o c rest bal false false with
  | none => simp
  | some k => simp [Function.comp, renderStr, escStr]; omega

/-- A balanced group in the scanned delimiter pair: the opening character
raises the balance, the body is consumed, the closing character restores
the balance, and because the balance stays positive throughout the scanner
does not terminate inside the group. -/
theorem consumes_group {o c : Char} (hd : DelimPair o c) {body : List Char}
    (hbody : Consumes o c body) : Consumes o c (o :: (body ++ [c])) := by
  intro rest bal hbal
  have hb : o ≠ '\\' := by rcases hd with ⟨h, _⟩ | ⟨h, _⟩ <;> subst h <;> decide
  have hq : o ≠ '"' := by rcases hd with ⟨h, _⟩ | ⟨h, _⟩ <;> subst h <;> decide
  have hcb : c ≠ '\\' := by rcases hd with ⟨_, h⟩ | ⟨_, h⟩ <;> subst h <;> decide
  have hcq : c ≠ '"' := by rcases hd with ⟨_, h⟩ | ⟨_, h⟩ <;> subst h <;> decide
  have hco : c ≠ o := by
    rcases hd with ⟨h1, h2⟩ | ⟨h1, h2⟩ <;> subst h1 <;> subst h2 <;> decide
  have h1 : bal + 1 ≠ 0 := by omega
  have hshape : (o :: (body ++ [c])) ++ rest = o :: (body ++ (c :: rest)) := by
    simp
  rw [hshape, scanLen_open o c _ bal hb hq h1,
    hbody (c :: rest) (bal + 1) (by omega),
    scanLen_close_go o c rest (bal + 1) hco hcb hcq (by omega),
    show bal + 1 - 1 = bal by omega, Option.map_map, Option.map_map]
  cases scanLen o c rest bal false false with
  | none => simp
  | some k => simp [Function.comp]; omega


theorem digitChar_safe (d : Nat) : IsSafe (digitChar d) := by
  unfold digitChar
  split <;> decide

theorem natDigitsAux_safe (fuel n : Nat) (acc : List Char)
    (hacc : ∀ a ∈ acc, IsSafe a) : ∀ ch ∈ natDigitsAux fuel n acc, IsSafe ch := by
  induction fuel generalizing n acc with
  | zero => simpa [natDigitsAux] using hacc
  | succ fuel ih =>
    cases n with
    | zero => simpa [natDigitsAux] using hacc
    | succ m =>
      rw [show natDigitsAux (fuel + 1) (m + 1) acc
          = natDigitsAux fuel ((m + 1) / 10) (digitChar ((m + 1) % 10) :: acc)
        from rfl]
      exact ih _ _ fun a ha => by
        rcases List.mem_cons.mp ha with h | h
        · exact h ▸ digitChar_safe _
        · exact hacc a h

theorem renderInt_safe (n : Int) : ∀ ch ∈ renderInt n, IsSafe ch := by
  intro ch hch
  unfold renderInt renderNat at hch
  split at hch
  · rcases List.mem_cons.mp hch with h | h
    · exact h ▸ (by decide)
    · split at h
      · simp at h; exact h ▸ (by decide)
      · exact natDigitsAux_safe _ _ [] (by simp) ch h
  · split at hch
    · simp at hch; exact hch ▸ (by decide)
    · exact natDigitsAux_safe _ _ [] (by simp) ch hch

/-!  The scanner passes over any rendered JSON value without terminating:
a mutual structural induction over the JSON syntax.  -/

mutual

theorem renderValue_consumes (v : JsonValue) (o c : Char) (hd : DelimPair o c) :
    Consumes o c (renderValue v) :=
  match v with
  | .jnull => consumes_all_safe hd (by decide)
  | .jbool true => consumes_all_safe hd (by decide)
  | .jbool false => consumes_all_safe hd (by decide)
  | .jnum n => consumes_all_safe hd (renderInt_safe n)
  | .jstr s => consumes_renderStr hd s
  | .jarr a => by
    rw [show renderValue (.jarr a) = '[' :: (renderArrElems a ++ [']']) from rfl]
    rcases hd with ⟨ho, hc⟩ | ⟨ho, hc⟩
    · subst ho; subst hc
      have hbody := renderArrElems_consumes a '{' '}' (Or.inl ⟨rfl, rfl⟩)
      have h1 : Consumes '{' '}' ['['] :=
        consumes_single (by decide) (by decide) (by decide) (by decide)
      have h2 : Consumes '{' '}' [']'] :=
        consumes_single (by decide) (by decide) (by decide) (by decide)
      have := consumes_append h1 (consumes_append hbody h2)
      simpa using this
    · subst ho; subst hc
      exact consumes_group (Or.inr ⟨rfl, rfl⟩)
        (renderArrElems_consumes a '[' ']' (Or.inr ⟨rfl, rfl⟩))
  | .jobj m => by
    rw [show renderValue (.jobj m) = '{' :: (renderObjMembs m ++ ['}']) from rfl]
    rcases hd with ⟨ho, hc⟩ | ⟨ho, hc⟩
    · subst ho; subst hc
      exact consumes_group (Or.inl ⟨rfl, rfl⟩)
        (renderObjMembs_consumes m '{' '}' (Or.inl ⟨rfl, rfl⟩))
    · subst ho; subst hc
      have hbody := renderObjMembs_consumes m '[' ']' (Or.inr ⟨rfl, rfl⟩)
      have h1 : Consumes '[' ']' ['{'] :=
        consumes_single (by decide) (by decide) (by decide) (by decide)
      have h2 : Consumes '[' ']' ['}'] :=
        consumes_single (by decide) (by decide) (by decide) (by decide)
      have := consumes_append h1 (consumes_append hbody h2)
      simpa using this

theorem renderArrElems_consumes (a : JsonArr) (o c : Char) (hd : DelimPair o c) :
    Consumes o c (renderArrElems a) :=
  match a with
  | .nil => consumes_nil o c
  | .cons v rest => by
    rw [show renderArrElems (.cons v rest) = renderValue v ++ renderArrTail rest
      from rfl]
    exact consumes_append (renderValue_consumes v o c hd)
      (renderArrTail_consumes rest o c hd)

theorem renderArrTail_consumes (a : JsonArr) (o c : Char) (hd : DelimPair o c) :
    Consumes o c (renderArrTail a) :=
  match a with
  | .nil => consumes_nil o c
  | .cons v rest => by
    rw [show renderArrTail (.cons v rest)
        = [','] ++ (renderValue v ++ renderArrTail rest) from rfl]
    exact consumes_append (consumes_safe hd (by decide))
      (consumes_append (renderValue_consumes v o c hd)
        (renderArrTail_consumes rest o c hd))

theorem renderObjMembs_consumes (m : JsonObj) (o c : Char) (hd : DelimPair o c) :
    Consumes o c (renderObjMembs m) :=
  match m with
  | .nil => consumes_nil o c
  | .cons k v rest => by
    rw [show renderObjMembs (.cons k v rest)
        = renderStr k ++ ([':'] ++ (renderValue v ++ renderObjTail rest)) from by
      simp [renderObjMembs]]
    exact consumes_append (consumes_renderStr hd k)
      (consumes_append (consumes_safe hd (by decide))
        (consumes_append (renderValue_consumes v o c hd)
          (renderObjTail_consumes rest o c hd)))

theorem renderObjTail_consumes (m : JsonObj) (o c : Char) (hd : DelimPair o c) :
    Consumes o c (renderObjTail m) :=
  match m with
  | .nil => consumes_nil o c
  | .cons k v rest => by
    rw [show renderObjTail (.cons k v rest)
        = [','] ++ (renderStr k ++ ([':'] ++ (renderValue v ++ renderObjTail rest)))
      from by simp [renderObjTail]]
    exact consumes_append (consumes_safe hd (by decide))
      (consumes_append (consumes_renderStr hd k)
        (consumes_append (consumes_safe hd (by decide))
          (consumes_append (renderValue_consumes v o c hd)
            (renderObjTail_consumes rest o c hd))))

end

/-!  Locating the embedded value: index and slicing helpers.  -/

theorem indexOfChar_append (p rest : List Char) (ch : Char) (hp : ch ∉ p) :
    indexOfChar (p ++ rest) ch = (indexOfChar rest ch).map (· + p.length) := by
  induction p with
  | nil => cases h : indexOfChar rest ch <;> simp [h]
  | cons a p ih =>
    have ha : a ≠ ch := fun h => hp (by simp [h])
    have hp' : ch ∉ p := fun h => hp (by simp [h])
    rw [List.cons_append, show indexOfChar (a :: (p ++ rest)) ch
        = if a = ch then some 0 else (indexOfChar (p ++ rest) ch).map (· + 1)
      from rfl, if_neg ha, ih hp']
    cases h : indexOfChar rest ch with
    | none => simp
    | some j => simp; omega

theorem indexOfChar_cons_self (rest : List Char) (ch : Char) :
    indexOfChar (ch :: rest) ch = some 0 := by
  simp [indexOfChar]

theorem indexOfChar_cons_ne (rest : List Char) (a ch : Char) (h : a ≠ ch) :
    indexOfChar (a :: rest) ch = (indexOfChar rest ch).map (· + 1) := by
  simp [indexOfChar, h]

theorem getD_append_length (p r : List Char) (x d : Char) :
    (p ++ x :: r).getD p.length d = x := by
  induction p with
  | nil => simp
  | cons a p ih => simpa using ih

theorem drop_append_cons (p t : List Char) (x : Char) :
    (p ++ x :: t).drop (p.length + 1) = t := by
  induction p with
  | nil => simp
  | cons a p ih => simp [ih]

/-- When the leading text contains no opening delimiter and the remainder
starts with one, `startPos` lands exactly on that delimiter. -/
theorem startPosOf_embed (p t : List Char) (x : Char)
    (hp : ∀ ch ∈ p, ch ≠ '{' ∧ ch ≠ '[')
    (hx : x = '{' ∨ x = '[') :
    startPosOf (p ++ x :: t) = some p.length := by
  have hpb : '{' ∉ p := fun h => (hp '{' h).1 rfl
  have hpk : '[' ∉ p := fun h => (hp '[' h).2 rfl
  rcases hx with rfl | rfl
  · have h1 : indexOfChar (p ++ '{' :: t) '{' = some p.length := by
      rw [indexOfChar_append p _ '{' hpb, indexOfChar_cons_self]; simp
    have h2 : indexOfChar (p ++ '{' :: t) '['
        = ((indexOfChar t '[').map (· + 1)).map (· + p.length) := by
      rw [indexOfChar_append p _ '[' hpk, indexOfChar_cons_ne _ _ _ (by decide)]
    unfold startPosOf
    rw [h1, h2]
    cases h : indexOfChar t '[' with
    | none => simp
    | some j => simp
  · have h1 : indexOfChar (p ++ '[' :: t) '[' = some p.length := by
      rw [indexOfChar_append p _ '[' hpk, indexOfChar_cons_self]; simp
    have h2 : indexOfChar (p ++ '[' :: t) '{'
        = ((indexOfChar t '{').map (· + 1)).map (· + p.length) := by
      rw [indexOfChar_append p _ '{' hpb, indexOfChar_cons_ne _ _ _ (by decide)]
    unfold startPosOf
    rw [h1, h2]
    cases h : indexOfChar t '{' with
    | none => simp
    | some j => simp

/-- Whether a JSON value is an object or an array — the two shapes the
extractor is specified to recover. -/
def isContainer : JsonValue → Bool
  | .jarr _ => true
  | .jobj _ => true
  | _ => false

theorem extractJson_at_start (text : List Char) (s : Nat)
    (h : startPosOf text = some s) :
    extractJson text
      = (match scanLen (text.getD s ' ')
            (if text.getD s ' ' = '{' then '}' else ']')
            (text.drop (s + 1)) 1 false false with
        | some k => Except.ok ((text.drop s).take (k + 1))
        | none => Except.error ExtractError.incomplete) := by
  unfold extractJson
  rw [h]

/-- The heart of the amended extraction claim: with the embedded container
value starting at the first opening delimiter of the input, the scan stops
exactly at the value's closing delimiter. -/
theorem extractJson_embedded (v : JsonValue) (p q : List Char)
    (hv : isContainer v = true)
    (hp : ∀ ch ∈ p, ch ≠ '{' ∧ ch ≠ '[') :
    extractJson (p ++ (renderValue v ++ q)) = Except.ok (renderValue v) := by
  cases v with
  | jnull => simp [isContainer] at hv
  | jbool b => simp [isContainer] at hv
  | jnum n => simp [isContainer] at hv
  | jstr s => simp [isContainer] at hv
  | jobj m =>
    have hshape : renderValue (.jobj m) = '{' :: (renderObjMembs m ++ ['}']) := rfl
    have htext : p ++ (renderValue (.jobj m) ++ q)
        = p ++ '{' :: ((renderObjMembs m ++ ['}']) ++ q) := by
      rw [hshape]; simp
    have hstart := startPosOf_embed p ((renderObjMembs m ++ ['}']) ++ q) '{' hp
      (Or.inl rfl)
    rw [htext, extractJson_at_start _ p.length hstart,
      getD_append_length p _ '{' ' ', if_pos rfl,
      drop_append_cons p ((renderObjMembs m ++ ['}']) ++ q) '{']
    have hsc : scanLen '{' '}' ((renderObjMembs m ++ ['}']) ++ q) 1 false false
        = some (1 + (renderObjMembs m).length) := by
      rw [List.append_assoc, show (['}'] ++ q : List Char) = '}' :: q from rfl,
        renderObjMembs_consumes m '{' '}' (Or.inl ⟨rfl, rfl⟩) ('}' :: q) 1
          (by norm_num),
        scanLen_close_end '{' '}' q 1 (by decide) (by decide) (by decide)
          (by norm_num)]
      simp
    rw [hsc]
    have hdrop0 : (p ++ '{' :: ((renderObjMembs m ++ ['}']) ++ q)).drop p.length
        = ('{' :: (renderObjMembs m ++ ['}'])) ++ q := by
      rw [show ('{' :: ((renderObjMembs m ++ ['}']) ++ q) : List Char)
          = ('{' :: (renderObjMembs m ++ ['}'])) ++ q from by simp]
      exact List.drop_left p _
    rw [hdrop0]
    have htake : (('{' :: (renderObjMembs m ++ ['}'])) ++ q).take
        (1 + (renderObjMembs m).length + 1) = '{' :: (renderObjMembs m ++ ['}']) := by
      apply List.take_left'
      simp; omega
    exact congrArg Except.ok (htake.trans hshape.symm)
  | jarr a =>
    have hshape : renderValue (.jarr a) = '[' :: (renderArrElems a ++ [']']) := rfl
    have htext : p ++ (renderValue (.jarr a) ++ q)
        = p ++ '[' :: ((renderArrElems a ++ [']']) ++ q) := by
      rw [hshape]; simp
    have hstart := startPosOf_embed p ((renderArrElems a ++ [']']) ++ q) '[' hp
      (Or.inr rfl)
    rw [htext, extractJson_at_start _ p.length hstart,
      getD_append_length p _ '[' ' ', if_neg (by decide),
      drop_append_cons p ((renderArrElems a ++ [']']) ++ q) '[']
    have hsc : scanLen '[' ']' ((renderArrElems a ++ [']']) ++ q) 1 false false
        = some (1 + (renderArrElems a).length) := by
      rw [List.append_assoc, show ([']'] ++ q : List Char) = ']' :: q from rfl,
        renderArrElems_consumes a '[' ']' (Or.inr ⟨rfl, rfl⟩) (']' :: q) 1
          (by norm_num),
        scanLen_close_end '[' ']' q 1 (by decide) (by decide) (by decide)
          (by norm_num)]
      simp
    rw [hsc]
    have hdrop0 : (p ++ '[' :: ((renderArrElems a ++ [']']) ++ q)).drop p.length
        = ('[' :: (renderArrElems a ++ [']'])) ++ q := by
      rw [show ('[' :: ((renderArrElems a ++ [']']) ++ q) : List Char)
          = ('[' :: (renderArrElems a ++ [']'])) ++ q from by simp]
      exact List.drop_left p _
    rw [hdrop0]
    have htake : (('[' :: (renderArrElems a ++ [']'])) ++ q).take
        (1 + (renderArrElems a).length + 1) = '[' :: (renderArrElems a ++ [']']) := by
      apply List.take_left'
      simp; omega
    exact congrArg Except.ok (htake.trans hshape.symm)

/-- C1 (counterexample): the input `"[ x {\"a\":1}"` contains a single
well-formed JSON object, `{"a":1}`, surrounded by prose — but the prose
contains a stray `'['` before the object, the scanner starts there with
`']'` as its close character, never sees a closing bracket, and fails with
the incomplete-JSON condition instead of returning the embedded object. -/
theorem extractJson_prose_bracket_cex :
    "[ x \x7b\"a\":1\x7d".data
      = "[ x ".data ++ (renderValue (.jobj (.cons ['a'] (.jnum 1) .nil)) ++ [])
    ∧ extractJson "[ x \x7b\"a\":1\x7d".data = Except.error ExtractError.incomplete := by
  constructor
  · simp [renderValue, renderObjMembs, renderObjTail, renderStr, escStr, escChar,
      renderInt, renderNat, natDigitsAux, digitChar]
  · decide

/-- C1 (amended): for every string of the form `p ++ J ++ q` where `J` is
the text of a well-formed JSON object or array and the preceding text `p`
contains no `'{'` or `'['` (so the embedded value starts at the first
opening delimiter of the input), `extractJson` succeeds and returns
exactly the embedded value's text. -/
theorem extractJson_extracts_embedded_json (v : JsonValue) (p q : List Char)
    (hv : isContainer v = true)
    (hp : ∀ ch ∈ p, ch ≠ '{' ∧ ch ≠ '[') :
    extractJson (p ++ (renderValue v ++ q)) = Except.ok (renderValue v) :=
  extractJson_embedded v p q hv hp

theorem extractJson_extracts_embedded_json_witness :
    (∀ ch ∈ "note: ".data, ch ≠ '{' ∧ ch ≠ '[')
    ∧ extractJson ("note: ".data
        ++ (renderValue (.jobj (.cons ['a'] (.jnum 1) .nil)) ++ " done".data))
      = Except.ok (renderValue (.jobj (.cons ['a'] (.jnum 1) .nil))) :=
  ⟨by decide, extractJson_extracts_embedded_json
    (.jobj (.cons ['a'] (.jnum 1) .nil)) "note: ".data " done".data
    (by decide) (by decide)⟩

/-- C2: brace and bracket characters seen while `inString` is set never
change the balance (the scan skips them), an escape-flagged quote does not
toggle string-mode, and consequently `extractJson` returns the whole
object on the spec's two examples: an object whose string value contains
braces, and an object whose string value contains an escaped quote. -/
theorem extractJson_string_immunity :
    (∀ (o c : Char) (cs : List Char) (bal : Int),
      scanLen o c ('{' :: cs) bal true false
        = (scanLen o c cs bal true false).map (· + 1)
      ∧ scanLen o c ('}' :: cs) bal true false
        = (scanLen o c cs bal true false).map (· + 1)
      ∧ scanLen o c ('[' :: cs) bal true false
        = (scanLen o c cs bal true false).map (· + 1)
      ∧ scanLen o c (']' :: cs) bal true false
        = (scanLen o c cs bal true false).map (· + 1))
    ∧ (∀ (o c ch : Char) (cs : List Char) (bal : Int) (inStr : Bool),
      scanLen o c (ch :: cs) bal inStr true
        = (scanLen o c cs bal inStr false).map (· + 1))
    ∧ extractJson "\x7b\"a\":\"\x7d not json \x7b\"\x7d".data
        = Except.ok "\x7b\"a\":\"\x7d not json \x7b\"\x7d".data
    ∧ extractJson "\x7b\"a\":\"esc\\\"aped\"\x7d".data
        = Except.ok "\x7b\"a\":\"esc\\\"aped\"\x7d".data := by
  refine ⟨?_, ?_, by decide, by decide⟩
  · intro o c cs bal
    exact ⟨scanLen_inStr o c '{' cs bal (by decide) (by decide),
      scanLen_inStr o c '}' cs bal (by decide) (by decide),
      scanLen_inStr o c '[' cs bal (by decide) (by decide),
      scanLen_inStr o c ']' cs bal (by decide) (by decide)⟩
  · intro o c ch cs bal inStr
    exact scanLen_esc o c ch cs bal inStr

theorem startPosOf_eq_none_iff (t : List Char) :
    startPosOf t = none ↔ indexOfChar t '{' = none ∧ indexOfChar t '[' = none := by
  unfold startPosOf
  cases h1 : indexOfChar t '{' <;> cases h2 : indexOfChar t '[' <;> simp

/-- C3: `extractJson` fails with the no-JSON condition exactly when the
input contains neither `'{'` nor `'['` (`indexOfChar` finds neither); and
whenever an opening delimiter exists but the scan runs off the end of the
input, it fails with the incomplete-JSON condition rather than returning
any substring. -/
theorem extractJson_failure_conditions (t : List Char) :
    (extractJson t = Except.error ExtractError.noJson
      ↔ indexOfChar t '{' = none ∧ indexOfChar t '[' = none)
    ∧ (∀ s, startPosOf t = some s →
        scanLen (t.getD s ' ') (if t.getD s ' ' = '{' then '}' else ']')
          (t.drop (s + 1)) 1 false false = none →
        extractJson t = Except.error ExtractError.incomplete) := by
  constructor
  · cases hsp : startPosOf t with
    | none =>
      have hvac := (startPosOf_eq_none_iff t).mp hsp
      unfold extractJson
      rw [hsp]
      simpa using hvac
    | some s =>
      constructor
      · intro h
        rw [extractJson_at_start t s hsp] at h
        cases hsc : scanLen (t.getD s ' ') (if t.getD s ' ' = '{' then '}' else ']')
            (t.drop (s + 1)) 1 false false <;> rw [hsc] at h <;> simp at h
      · rintro ⟨h1, h2⟩
        have hnone : startPosOf t = none := (startPosOf_eq_none_iff t).mpr ⟨h1, h2⟩
        rw [hsp] at hnone
        cases hnone
  · intro s hs hscan
    rw [extractJson_at_start t s hs, hscan]

theorem extractJson_failure_conditions_witness :
    extractJson "\x7bab".data = Except.error ExtractError.incomplete :=
  (extractJson_failure_conditions "\x7bab".data).2 0 (by decide) (by decide)

/-!
Orchestrator model (src/App.tsx).

Entity types follow the application's `types.ts`.  The component state
hooks of the `App` component (src/App.tsx, lines 83-97) become the fields
of `AppState`; UI-only state (focused input, loading message, refs) is
omitted.  Each `handleXxx` callback becomes a function from the oracle(s)
standing for its network calls and the pre-call state to the final state
reached once all `setState` calls of that invocation have landed; the
handlers that fan out network calls additionally return the list of
requests they issued, so that "no network call is made" claims are
expressible.  The transient loading step (`ANALYZING`, `GENERATING_IDEAS`,
`GENERATING_BLUEPRINT`) set at the start of a handler and replaced before
it finishes does not appear in the final state.
-/

structure AnalysisResult where
  productName : String
  introduction : String
  manufacturingOrigin : String
  strengths : List String
  flaws : List String
  humanImpact : String
  missedOpportunities : List String
  enhancementIdeas : List String
  unforeseenFlaws : List String
deriving DecidableEq, Repr

structure HybridIdea where
  ideaName : String
  whatItIs : String
  reasoning : String
  whyBetter : String
deriving DecidableEq, Repr

structure IdeaGenerationResult where
  thinkingProcess : String
  ideas : List HybridIdea
deriving DecidableEq, Repr

structure DIYStep where
  step : Int
  title : String
  description : String
  actionableItems : List String
deriving DecidableEq, Repr

inductive DiagramType where
  | flowchart
  | architecture
  | userJourney
deriving DecidableEq, Repr

structure Diagram where
  title : String
  type : DiagramType
  svg : String
deriving DecidableEq, Repr

structure BlueprintIntroduction where
  problemStatement : String
  proposedSolution : String
  valueProposition : String
deriving DecidableEq, Repr

structure MarketAnalysis where
  targetAudience : String
  marketSize : String
  competitiveLandscape : String
deriving DecidableEq, Repr

structure ProductSpecification where
  keyFeatures : List String
  userJourneyDiagram : Diagram
  techStack : List String
  architectureDiagram : Diagram
deriving DecidableEq, Repr

structure BusinessStrategy where
  monetizationStrategy : List String
  goToMarketPlan : List String
deriving DecidableEq, Repr

structure ImplementationRoadmap where
  diyGuide : List DIYStep
deriving DecidableEq, Repr

structure Blueprint where
  title : String
  abstract : String
  introduction : BlueprintIntroduction
  marketAnalysis : MarketAnalysis
  productSpecification : ProductSpecification
  businessStrategy : BusinessStrategy
  implementationRoadmap : ImplementationRoadmap
  conclusion : String
deriving DecidableEq, Repr

inductive AppStep where
  | INITIAL
  | ANALYZING
  | ANALYZED
  | GENERATING_IDEAS
  | IDEAS_GENERATED
  | GENERATING_BLUEPRINT
  | BLUEPRINT_GENERATED
deriving DecidableEq, Repr

/-- The state hooks of the `App` component (src/App.tsx, lines 83-94).
`blueprints` is the insertion-ordered JavaScript `Map` as an association
list; the `open*` `Set`s keep only what the claims need (their elements'
insertion order is irrelevant to every handler). -/
structure AppState where
  products : List String
  analyses : Option (List AnalysisResult)
  allIdeas : Option (List HybridIdea)
  thinkingProcess : Option String
  selectedIdeas : List HybridIdea
  blueprints : List (String × Blueprint)
  step : AppStep
  error : Option String
  openAnalyses : List Nat
  openIdeas : List Nat
  openBlueprints : List String
deriving DecidableEq, Repr

/-- The `useState` initial values (src/App.tsx, lines 83-94). -/
def initialState : AppState where
  products := ["", ""]
  analyses := none
  allIdeas := none
  thinkingProcess := none
  selectedIdeas := []
  blueprints := []
  step := AppStep.INITIAL
  error := none
  openAnalyses := []
  openIdeas := []
  openBlueprints := []

/-- The fan-out/fan-in join `Promise.all`: all calls in the list are
issued; if every one fulfils, the results are joined in the callers'
index order; a rejection rejects the whole join (the model reports the
least-index rejection; see the header note). -/
def promiseAll {α : Type} : List (Except String α) → Except String (List α)
  | [] => Except.ok []
  | Except.ok a :: rest => (promiseAll rest).map (fun l => a :: l)
  | Except.error e :: _ => Except.error e

/-- `Map.prototype.set` on the insertion-ordered association list: an
existing key keeps its position and gets the new value, a new key is
appended. -/
def mapSet (m : List (String × Blueprint)) (k : String) (v : Blueprint) :
    List (String × Blueprint) :=
  if m.any (fun kv => kv.1 == k) then
    m.map (fun kv => if kv.1 == k then (k, v) else kv)
  else
    m ++ [(k, v)]

/-- `handleAddProduct` (src/App.tsx, lines 160-164). -/
def handleAddProduct (st : AppState) : AppState :=
  if st.products.length < 5 then { st with products := st.products ++ [""] }
  else st

/-- `handleRemoveProduct` (src/App.tsx, lines 166-172); `splice(index, 1)`
is `List.eraseIdx`. -/
def handleRemoveProduct (index : Nat) (st : AppState) : AppState :=
  if st.products.length > 2 then
    { st with products := st.products.eraseIdx index }
  else st

/-- `handleProductChange` (src/App.tsx, lines 174-178), for the in-range
indices the entry UI produces. -/
def handleProductChange (index : Nat) (value : String) (st : AppState) : AppState :=
  { st with products := st.products.set index value }

/-- `handleStartOver` (src/App.tsx, lines 314-326). -/
def handleStartOver (st : AppState) : AppState :=
  { st with
    products := ["", ""]
    analyses := none
    allIdeas := none
    thinkingProcess := none
    selectedIdeas := []
    blueprints := []
    step := AppStep.INITIAL
    error := none
    openAnalyses := []
    openIdeas := []
    openBlueprints := [] }

/-- JavaScript `String.prototype.trim`: strip leading and trailing
whitespace. -/
def jsTrim (s : String) : String :=
  ⟨((s.data.dropWhile Char.isWhitespace).reverse.dropWhile Char.isWhitespace).reverse⟩

/-- `handleAnalyzeProducts` (src/App.tsx, lines 180-200).  `analyze` is
the `analyzeProduct` oracle; the second component of the result is the
list of product names sent to it (empty in the validation-error branch,
where the handler returns before `Promise.all`). -/
def handleAnalyzeProducts (analyze : String → Except String AnalysisResult)
    (st : AppState) : AppState × List String :=
  let validProducts := (st.products.map jsTrim).filter (fun p => p ≠ "")
  if validProducts.length < 2 then
    ({ st with error := some "Please enter at least two product names." }, [])
  else
    match promiseAll (validProducts.map analyze) with
    | Except.ok results =>
      ({ st with
          error := none
          analyses := some results
          openAnalyses := []
          step := AppStep.ANALYZED }, validProducts)
    | Except.error msg =>
      ({ st with error := some msg, step := AppStep.INITIAL }, validProducts)

/-- `handleGenerateBlueprints` (src/App.tsx, lines 220-244).  `generate`
is the `generateBlueprint` oracle; the second component is the list of
idea names for which a Gateway call was issued. -/
def handleGenerateBlueprints (generate : HybridIdea → Except String Blueprint)
    (st : AppState) : AppState × List String :=
  if st.selectedIdeas.length = 0 then (st, [])
  else
    let calls := st.selectedIdeas.map (fun idea => idea.ideaName)
    match promiseAll (st.selectedIdeas.map
        (fun idea => (generate idea).map (fun bp => (idea.ideaName, bp)))) with
    | Except.ok results =>
      ({ st with
          error := none
          blueprints := results.foldl (fun m r => mapSet m r.1 r.2) st.blueprints
          openBlueprints := []
          step := AppStep.BLUEPRINT_GENERATED }, calls)
    | Except.error msg =>
      ({ st with error := some msg, step := AppStep.IDEAS_GENERATED }, calls)

/-- `handleGenerateMoreIdeas` (src/App.tsx, lines 246-265).  `generate`
is the `generateHybridIdeas` oracle, `paraphrase` the `paraphraseText`
oracle.  The step is saved in `previousStep` and restored in both the
success and failure paths, so the final step equals the pre-call step. -/
def handleGenerateMoreIdeas
    (generate : List AnalysisResult → List HybridIdea →
      Except String IdeaGenerationResult)
    (paraphrase : String → Except String String)
    (st : AppState) : AppState :=
  match st.analyses, st.allIdeas with
  | some analyses, some allIdeas =>
    match generate analyses allIdeas with
    | Except.ok r =>
      match paraphrase
          ((st.thinkingProcess.getD "") ++ "\n\n---\n\n" ++ r.thinkingProcess) with
      | Except.ok para =>
        { st with
            error := none
            allIdeas := some (allIdeas ++ r.ideas)
            thinkingProcess := some para }
      | Except.error msg => { st with error := some msg }
    | Except.error msg => { st with error := some msg }
  | _, _ => st

/-- `handleToggleIdeaSelection` (src/App.tsx, lines 267-276): a pure
update of `selectedIdeas`, keyed by `ideaName`. -/
def handleToggleIdeaSelection (idea : HybridIdea) (st : AppState) : AppState :=
  let isSelected := st.selectedIdeas.any (fun i => i.ideaName == idea.ideaName)
  if isSelected then
    { st with
      selectedIdeas := st.selectedIdeas.filter
        (fun i => ¬ i.ideaName = idea.ideaName) }
  else
    { st with selectedIdeas := st.selectedIdeas ++ [idea] }

theorem promiseAll_map_ok {α β : Type} (f : α → Except String β) (g : α → β)
    (l : List α) (hg : ∀ x ∈ l, f x = Except.ok (g x)) :
    promiseAll (l.map f) = Except.ok (l.map g) := by
  induction l with
  | nil => rfl
  | cons a l ih =>
    rw [List.map_cons, List.map_cons, show f a = Except.ok (g a) from hg a (by simp)]
    rw [show promiseAll (Except.ok (g a) :: l.map f)
        = (promiseAll (l.map f)).map (fun r => g a :: r) from rfl]
    rw [ih fun x hx => hg x (by simp [hx])]
    rfl

theorem promiseAll_map_error {α β : Type} (f : α → Except String β)
    {l : List α} {x : α} {e : String} (hx : x ∈ l) (he : f x = Except.error e) :
    ∃ e', promiseAll (l.map f) = Except.error e' := by
  induction l with
  | nil => cases hx
  | cons a l ih =>
    rw [List.map_cons]
    cases hfa : f a with
    | error e' =>
      exact ⟨e', by
        rw [show promiseAll (Except.error e' :: l.map f) = Except.error e' from rfl]⟩
    | ok b =>
      rcases List.mem_cons.mp hx with rfl | hx'
      · rw [hfa] at he; cases he
      · obtain ⟨e', he'⟩ := ih hx'
        refine ⟨e', ?_⟩
        rw [show promiseAll (Except.ok b :: l.map f)
            = (promiseAll (l.map f)).map (fun r => b :: r) from rfl, he']
        rfl

/-- C4: for a batch of at least two valid product names, if any one of
the concurrent `analyzeProduct` calls rejects, the whole batch fails: the
stored analyses are exactly the pre-call ones (no partial list of the
successful results is kept) and the step reverts to `INITIAL`. -/
theorem handleAnalyzeProducts_all_or_nothing
    (analyze : String → Except String AnalysisResult) (st : AppState)
    (p e : String)
    (hn : 2 ≤ ((st.products.map jsTrim).filter (fun s => s ≠ "")).length)
    (hp : p ∈ (st.products.map jsTrim).filter (fun s => s ≠ ""))
    (he : analyze p = Except.error e) :
    (handleAnalyzeProducts analyze st).1.analyses = st.analyses
    ∧ (handleAnalyzeProducts analyze st).1.allIdeas = st.allIdeas
    ∧ (handleAnalyzeProducts analyze st).1.step = AppStep.INITIAL := by
  obtain ⟨e', he'⟩ := promiseAll_map_error analyze hp he
  simp only [handleAnalyzeProducts]
  rw [if_neg (by omega), he']
  exact ⟨rfl, rfl, rfl⟩

/-- A concrete analysis value used by witnesses and counterexamples. -/
def emptyAnalysis : AnalysisResult where
  productName := ""
  introduction := ""
  manufacturingOrigin := ""
  strengths := []
  flaws := []
  humanImpact := ""
  missedOpportunities := []
  enhancementIdeas := []
  unforeseenFlaws := []

theorem handleAnalyzeProducts_all_or_nothing_witness :
    (handleAnalyzeProducts
      (fun s => if s = "b" then Except.error "boom" else Except.ok emptyAnalysis)
      { initialState with products := ["a", "b"] }).1.analyses = none
    ∧ (handleAnalyzeProducts
      (fun s => if s = "b" then Except.error "boom" else Except.ok emptyAnalysis)
      { initialState with products := ["a", "b"] }).1.step = AppStep.INITIAL := by
  have h := handleAnalyzeProducts_all_or_nothing
    (fun s => if s = "b" then Except.error "boom" else Except.ok emptyAnalysis)
    { initialState with products := ["a", "b"] } "b" "boom"
    (by decide) (by decide) (by decide)
  exact ⟨h.1, h.2.2⟩

/-- C9: with fewer than two non-empty trimmed product names, the analyze
action only records the validation error message: no `analyzeProduct`
call is issued (the call list is empty) and every other state field —
including the step and all accumulated results — is unchanged. -/
theorem handleAnalyzeProducts_validation
    (analyze : String → Except String AnalysisResult) (st : AppState)
    (hn : ((st.products.map jsTrim).filter (fun s => s ≠ "")).length < 2) :
    handleAnalyzeProducts analyze st
      = ({ st with error := some "Please enter at least two product names." }, []) := by
  simp only [handleAnalyzeProducts]
  rw [if_pos hn]

theorem handleAnalyzeProducts_validation_witness :
    handleAnalyzeProducts (fun _ => Except.error "never called") initialState
      = ({ initialState with
            error := some "Please enter at least two product names." }, []) :=
  handleAnalyzeProducts_validation (fun _ => Except.error "never called")
    initialState (by decide)

/-- C7: when every `analyzeProduct` call fulfils, a batch of `n` valid
(non-empty trimmed) product names produces an analysis list of length `n`
whose `i`-th element is the oracle's result for the `i`-th (trimmed)
input name — the `Promise.all` join places results by caller index, so
the conclusion is independent of response arrival order, which the model
does not even represent. -/
theorem handleAnalyzeProducts_preserves_order
    (analyze : String → Except String AnalysisResult)
    (g : String → AnalysisResult) (st : AppState)
    (hg : ∀ p, analyze p = Except.ok (g p))
    (hval : ∀ p ∈ st.products, ¬ jsTrim p = "")
    (hn : 2 ≤ st.products.length) :
    (handleAnalyzeProducts analyze st).1.analyses
      = some (st.products.map (fun p => g (jsTrim p)))
    ∧ (st.products.map (fun p => g (jsTrim p))).length = st.products.length
    ∧ (handleAnalyzeProducts analyze st).1.step = AppStep.ANALYZED := by
  have hfil : (st.products.map jsTrim).filter (fun s => s ≠ "")
      = st.products.map jsTrim := by
    rw [List.filter_eq_self]
    intro a ha
    obtain ⟨p, hp, rfl⟩ := List.mem_map.mp ha
    simpa using hval p hp
  have hok : promiseAll ((st.products.map jsTrim).map analyze)
      = Except.ok ((st.products.map jsTrim).map g) :=
    promiseAll_map_ok analyze g _ fun x _ => hg x
  simp only [handleAnalyzeProducts, hfil]
  rw [if_neg (by simp; omega), hok]
  refine ⟨?_, by simp, rfl⟩
  simp [List.map_map, Function.comp]

theorem handleAnalyzeProducts_preserves_order_witness :
    (handleAnalyzeProducts (fun s => Except.ok { emptyAnalysis with productName := s })
      { initialState with products := ["a", "b", "c"] }).1.analyses
      = some (["a", "b", "c"].map fun p =>
          { emptyAnalysis with productName := jsTrim p }) := by
  have h := handleAnalyzeProducts_preserves_order
    (fun s => Except.ok { emptyAnalysis with productName := s })
    (fun s => { emptyAnalysis with productName := s })
    { initialState with products := ["a", "b", "c"] }
    (fun _ => rfl) (by decide) (by decide)
  exact h.1

/-- A concrete blueprint value used by witnesses and counterexamples. -/
def emptyBlueprint : Blueprint where
  title := ""
  abstract := ""
  introduction := { problemStatement := "", proposedSolution := "", valueProposition := "" }
  marketAnalysis := { targetAudience := "", marketSize := "", competitiveLandscape := "" }
  productSpecification :=
    { keyFeatures := []
      userJourneyDiagram := { title := "", type := DiagramType.flowchart, svg := "" }
      techStack := []
      architectureDiagram := { title := "", type := DiagramType.architecture, svg := "" } }
  businessStrategy := { monetizationStrategy := [], goToMarketPlan := [] }
  implementationRoadmap := { diyGuide := [] }
  conclusion := ""

/-- A concrete idea used by witnesses and counterexamples. -/
def ideaI1 : HybridIdea where
  ideaName := "I1"
  whatItIs := ""
  reasoning := ""
  whyBetter := ""

/-- A state in which `ideaI1` is selected and its blueprint is already in
the blueprints map. -/
def blueprintedState : AppState :=
  { initialState with
      allIdeas := some [ideaI1]
      selectedIdeas := [ideaI1]
      blueprints := [("I1", emptyBlueprint)]
      step := AppStep.BLUEPRINT_GENERATED }

/-- C5 (counterexample): in a state where the selected idea `I1` has a
blueprint in the map, toggling `I1` off does deselect it, but the
blueprints map — which the UI displays in full — still contains `I1`'s
blueprint: `handleToggleIdeaSelection` never touches `blueprints`, so the
cached blueprint is not removed from the displayed map. -/
theorem handleToggleIdeaSelection_keeps_blueprint_cex :
    blueprintedState.selectedIdeas = [ideaI1]
    ∧ blueprintedState.blueprints = [("I1", emptyBlueprint)]
    ∧ (handleToggleIdeaSelection ideaI1 blueprintedState).selectedIdeas = []
    ∧ (handleToggleIdeaSelection ideaI1 blueprintedState).blueprints
        = [("I1", emptyBlueprint)] := by
  refine ⟨rfl, rfl, by decide, rfl⟩

/-- C5 (amended): toggling a currently selected idea off removes the idea
from the selection, but leaves the blueprints map — including that idea's
cached blueprint — unchanged. -/
theorem handleToggleIdeaSelection_deselect (idea : HybridIdea) (st : AppState)
    (h : st.selectedIdeas.any (fun i => i.ideaName == idea.ideaName) = true) :
    (handleToggleIdeaSelection idea st).selectedIdeas
      = st.selectedIdeas.filter (fun i => ¬ i.ideaName = idea.ideaName)
    ∧ (handleToggleIdeaSelection idea st).blueprints = st.blueprints := by
  simp only [handleToggleIdeaSelection, h, if_true]
  constructor <;> first | rfl | trivial

theorem handleToggleIdeaSelection_deselect_witness :
    (handleToggleIdeaSelection ideaI1 blueprintedState).selectedIdeas
      = blueprintedState.selectedIdeas.filter
          (fun i => ¬ i.ideaName = ideaI1.ideaName)
    ∧ (handleToggleIdeaSelection ideaI1 blueprintedState).blueprints
        = blueprintedState.blueprints :=
  handleToggleIdeaSelection_deselect ideaI1 blueprintedState (by decide)

/-- C6 (counterexample): in a state where the only selected idea `I1`
already has a blueprint in the map, running the blueprint action still
issues a `generateBlueprint` Gateway call for `I1` — the handler maps
over all of `selectedIdeas` with no memoization filter, so the
already-blueprinted idea is re-requested. -/
theorem handleGenerateBlueprints_rerequests_cex :
    blueprintedState.blueprints = [("I1", emptyBlueprint)]
    ∧ (handleGenerateBlueprints (fun _ => Except.ok emptyBlueprint)
        blueprintedState).2 = ["I1"] := by
  refine ⟨rfl, by decide⟩

/-- C6 (amended): the blueprint action issues one `generateBlueprint`
Gateway call per currently selected idea — whether or not that idea is
already present in the blueprints map; already-blueprinted selected ideas
are re-requested rather than skipped. -/
theorem handleGenerateBlueprints_calls_all_selected
    (generate : HybridIdea → Except String Blueprint) (st : AppState) :
    (handleGenerateBlueprints generate st).2
      = st.selectedIdeas.map (fun i => i.ideaName) := by
  unfold handleGenerateBlueprints
  by_cases h : st.selectedIdeas.length = 0
  · rw [if_pos h, List.length_eq_zero.mp h]
    rfl
  · rw [if_neg h]
    cases promiseAll (st.selectedIdeas.map
        (fun idea => (generate idea).map (fun bp => (idea.ideaName, bp)))) <;> rfl

/-- C8: a successful generate-more-ideas action appends the newly
returned ideas to the accumulated list and feeds the accumulated log text
(old text, separator, new text) to the paraphraser rather than replacing
it; after two successful calls the idea list is the original list
followed by the first batch followed by the second batch, so the final
count is the sum of the batch counts and the first batch is still
present. -/
theorem handleGenerateMoreIdeas_accumulates
    (generate : List AnalysisResult → List HybridIdea →
      Except String IdeaGenerationResult)
    (paraphrase : String → Except String String)
    (st : AppState) (A : List AnalysisResult) (l0 : List HybridIdea)
    (r1 r2 : IdeaGenerationResult) (pf : String → String)
    (hA : st.analyses = some A) (hl : st.allIdeas = some l0)
    (h1 : generate A l0 = Except.ok r1)
    (h2 : generate A (l0 ++ r1.ideas) = Except.ok r2)
    (hp : ∀ s, paraphrase s = Except.ok (pf s)) :
    (handleGenerateMoreIdeas generate paraphrase st).allIdeas
      = some (l0 ++ r1.ideas)
    ∧ (handleGenerateMoreIdeas generate paraphrase st).thinkingProcess
      = some (pf ((st.thinkingProcess.getD "") ++ "\n\n---\n\n" ++ r1.thinkingProcess))
    ∧ (handleGenerateMoreIdeas generate paraphrase
        (handleGenerateMoreIdeas generate paraphrase st)).allIdeas
      = some ((l0 ++ r1.ideas) ++ r2.ideas)
    ∧ ((l0 ++ r1.ideas) ++ r2.ideas).length
      = l0.length + r1.ideas.length + r2.ideas.length := by
  have e1 : handleGenerateMoreIdeas generate paraphrase st
      = { st with
            error := none
            allIdeas := some (l0 ++ r1.ideas)
            thinkingProcess := some (pf ((st.thinkingProcess.getD "")
              ++ "\n\n---\n\n" ++ r1.thinkingProcess)) } := by
    simp only [handleGenerateMoreIdeas, hA, hl, h1, hp]
  have e2 : handleGenerateMoreIdeas generate paraphrase
      (handleGenerateMoreIdeas generate paraphrase st)
      = { st with
            error := none
            allIdeas := some ((l0 ++ r1.ideas) ++ r2.ideas)
            thinkingProcess := some (pf ((pf ((st.thinkingProcess.getD "")
                ++ "\n\n---\n\n" ++ r1.thinkingProcess))
              ++ "\n\n---\n\n" ++ r2.thinkingProcess)) } := by
    rw [e1]
    simp only [handleGenerateMoreIdeas, hA, h2, hp, Option.getD_some]
  rw [e2, e1]
  refine ⟨rfl, rfl, rfl, by simp [Nat.add_assoc]⟩

theorem handleGenerateMoreIdeas_accumulates_witness :
    (handleGenerateMoreIdeas (fun _ _ => Except.ok ⟨"t", [ideaI1]⟩)
      (fun s => Except.ok s)
      (handleGenerateMoreIdeas (fun _ _ => Except.ok ⟨"t", [ideaI1]⟩)
        (fun s => Except.ok s)
        { initialState with analyses := some [], allIdeas := some [] })).allIdeas
      = some (([] ++ [ideaI1]) ++ [ideaI1]) :=
  (handleGenerateMoreIdeas_accumulates
    (fun _ _ => Except.ok ⟨"t", [ideaI1]⟩) (fun s => Except.ok s)
    { initialState with analyses := some [], allIdeas := some [] }
    [] [] ⟨"t", [ideaI1]⟩ ⟨"t", [ideaI1]⟩ (fun s => s)
    rfl rfl rfl rfl (fun _ => rfl)).2.2.1

/-!  No handler other than the four product-list operations touches
`products`.  -/

theorem handleAnalyzeProducts_products
    (analyze : String → Except String AnalysisResult) (st : AppState) :
    (handleAnalyzeProducts analyze st).1.products = st.products := by
  simp only [handleAnalyzeProducts]
  split
  · rfl
  · split <;> rfl

theorem handleGenerateBlueprints_products
    (generate : HybridIdea → Except String Blueprint) (st : AppState) :
    (handleGenerateBlueprints generate st).1.products = st.products := by
  unfold handleGenerateBlueprints
  split
  · rfl
  · split <;> rfl

theorem handleGenerateMoreIdeas_products
    (generate : List AnalysisResult → List HybridIdea →
      Except String IdeaGenerationResult)
    (paraphrase : String → Except String String) (st : AppState) :
    (handleGenerateMoreIdeas generate paraphrase st).products = st.products := by
  unfold handleGenerateMoreIdeas
  split
  · split
    · split <;> rfl
    · rfl
  · rfl

theorem handleToggleIdeaSelection_products (idea : HybridIdea) (st : AppState) :
    (handleToggleIdeaSelection idea st).products = st.products := by
  simp only [handleToggleIdeaSelection]
  split <;> rfl

/-- The states reachable from the initial render of the `App` component
through its event handlers, each handler invoked with arbitrary oracles
and arguments (`handleProductChange` with the in-range indices the entry
UI produces). -/
inductive Reachable : AppState → Prop where
  | init : Reachable initialState
  | addProduct {st : AppState} : Reachable st → Reachable (handleAddProduct st)
  | removeProduct {st : AppState} (index : Nat) :
      Reachable st → Reachable (handleRemoveProduct index st)
  | productChange {st : AppState} (index : Nat) (value : String) :
      index < st.products.length →
      Reachable st → Reachable (handleProductChange index value st)
  | startOver {st : AppState} : Reachable st → Reachable (handleStartOver st)
  | analyze {st : AppState} (analyzeOracle : String → Except String AnalysisResult) :
      Reachable st → Reachable (handleAnalyzeProducts analyzeOracle st).1
  | generateBlueprints {st : AppState}
      (generateOracle : HybridIdea → Except String Blueprint) :
      Reachable st → Reachable (handleGenerateBlueprints generateOracle st).1
  | generateMoreIdeas {st : AppState}
      (generateOracle : List AnalysisResult → List HybridIdea →
        Except String IdeaGenerationResult)
      (paraphraseOracle : String → Except String String) :
      Reachable st →
      Reachable (handleGenerateMoreIdeas generateOracle paraphraseOracle st)
  | toggleIdea {st : AppState} (idea : HybridIdea) :
      Reachable st → Reachable (handleToggleIdeaSelection idea st)

/-- C10: in every reachable state the product-name list has between 2 and
5 entries: the initial state has 2, `handleAddProduct` only adds below 5,
`handleRemoveProduct` only removes above 2, `handleProductChange`
preserves the length, `handleStartOver` resets to 2, and no other handler
touches `products`. -/
theorem products_length_invariant (st : AppState) (h : Reachable st) :
    2 ≤ st.products.length ∧ st.products.length ≤ 5 := by
  induction h with
  | init => exact ⟨by decide, by decide⟩
  | addProduct _ ih =>
    unfold handleAddProduct
    split
    · rename_i hlt
      constructor <;> simp <;> omega
    · exact ih
  | removeProduct index _ ih =>
    unfold handleRemoveProduct
    split
    · rename_i hgt
      constructor <;> simp only [List.length_eraseIdx] <;> split <;> omega
    · exact ih
  | productChange index value hidx _ ih =>
    unfold handleProductChange
    simpa using ih
  | startOver _ ih => refine ⟨?_, ?_⟩ <;> simp [handleStartOver]
  | analyze analyzeOracle _ ih =>
    rw [handleAnalyzeProducts_products]
    exact ih
  | generateBlueprints generateOracle _ ih =>
    rw [handleGenerateBlueprints_products]
    exact ih
  | generateMoreIdeas generateOracle paraphraseOracle _ ih =>
    rw [handleGenerateMoreIdeas_products]
    exact ih
  | toggleIdea idea _ ih =>
    rw [handleToggleIdeaSelection_products]
    exact ih

theorem products_length_invariant_witness :
    2 ≤ initialState.products.length ∧ initialState.products.length ≤ 5 :=
  products_length_invariant initialState Reachable.init
